import Mathlib

/-!
Verification development for the SSR module loader in
`packages/vite/src/node/ssr/ssrModuleLoader.ts`.

The development shallowly embeds the loader:

* runtime values (`JSVal`), objects with data and accessor properties
  (`Obj`), and a heap of objects addressed by numeric ids (`Heap`);
* the default-export interop proxy built by `nodeRequire`
  (lines 149-159 of the source);
* the memoized `resolve` function and its cache (lines 161-176);
* the `ssrExportAll` helper (lines 102-114);
* a fuel-based sequential interpreter `exec` for `ssrLoadModule`,
  `instantiateModule`, the dependency pre-load loop and module body
  execution (lines 22-100, 116-147), where module bodies are given as
  lists of effect instructions (the loader runs arbitrary transformed
  source; the instruction set covers the binding surface the loader
  injects: export assignment, static import, dynamic import,
  export-all, and throwing);
* a small-step interleaving machine for the loader front
  (lines 20, 37-42) used for the single-flight property, in which a
  running instantiation is an abstract task that settles
  nondeterministically.

External collaborators that are not part of the source file
(`moduleGraph.ensureEntryFromUrl`, `transformRequest`, `unwrapId`,
`resolveFrom`, `require`, filesystem probing) are modelled from the
spec as environment parameters, as noted on each definition.
-/

/-- Runtime values: undefined, booleans, integers, strings, and
references to heap objects (export namespaces, raw external modules). -/
inductive JSVal where
  | undefined
  | bool (b : Bool)
  | num (n : Int)
  | str (s : String)
  | obj (id : Nat)
deriving DecidableEq, Repr

/-- JavaScript truthiness for the modelled values. -/
def truthy : JSVal → Bool
  | .undefined => false
  | .bool b => b
  | .num n => n != 0
  | .str s => s != ""
  | .obj _ => true

/-- Value of an object property: either a plain data value or an
accessor whose getter reads property `key` of object `src` at access
time (the closure created by `ssrExportAll`, lines 105-111). -/
inductive PropVal where
  | value (v : JSVal)
  | accessor (src : Nat) (key : String)
deriving DecidableEq, Repr

/-- Property descriptor: the (data or accessor) value together with the
enumerability flag (the only attribute the loader observes, via
for-in). -/
structure PropDesc where
  val : PropVal
  enumerable : Bool
deriving DecidableEq, Repr

/-- An object is a list of string-keyed properties in insertion order,
matching for-in enumeration order for the keys the loader uses. -/
def Obj := List (String × PropDesc)
deriving instance DecidableEq for Obj

/-- First-match property lookup. -/
def lookupProp : Obj → String → Option PropDesc
  | [], _ => none
  | (k', d) :: rest, k => if k' = k then some d else lookupProp rest k

/-- Define or replace a property, keeping insertion order, as
JavaScript property definition does. -/
def setProp : Obj → String → PropDesc → Obj
  | [], k, d => [(k, d)]
  | (k', d') :: rest, k, d =>
      if k' = k then (k, d) :: rest else (k', d') :: setProp rest k d

/-- Enumerable own keys in insertion order (for-in over the modelled
objects, which have no prototype chain). -/
def enumKeys (o : Obj) : List String :=
  (o.filter (fun e => e.2.enumerable)).map (fun e => e.1)

/-- A heap maps object ids to objects. -/
def Heap := List (Nat × Obj)
deriving instance DecidableEq for Heap

/-- Fetch an object from the heap; a dangling id reads as the empty
object. -/
def heapGet : Heap → Nat → Obj
  | [], _ => []
  | (i, o) :: rest, oid => if i = oid then o else heapGet rest oid

/-- Store an object in the heap. -/
def heapSet : Heap → Nat → Obj → Heap
  | [], oid, o => [(oid, o)]
  | (i, o') :: rest, oid, o =>
      if i = oid then (oid, o) :: rest else (i, o') :: heapSet rest oid o

/-- Property read with fuel: a data property yields its value, an
accessor property re-reads `key` on `src` in the current heap, exactly
as the getter installed by `ssrExportAll` does. Fuel bounds chains of
accessors; a missing property reads as undefined (`none`). -/
def readWith (h : Heap) : Nat → Nat → String → Option JSVal
  | 0, _, _ => none
  | n + 1, oid, k =>
      match lookupProp (heapGet h oid) k with
      | some d =>
          match d.val with
          | .value v => some v
          | .accessor src key => readWith h n src key
      | none => none

/-- Plain property assignment (`obj[k] = v`). -/
def objSetProp (h : Heap) (oid : Nat) (k : String) (v : JSVal) : Heap :=
  heapSet h oid (setProp (heapGet h oid) k ⟨.value v, true⟩)

/-- Dependency classification, line 73 of the source:
`dep[0] !== '.' && dep[0] !== '/'`. Indexing an empty string yields
undefined in JavaScript, which differs from both characters, so the
empty specifier is external. -/
def isExternal (dep : String) : Bool :=
  match dep.data with
  | [] => true
  | c :: _ => c != '.' && c != '/'

/-! ### External resolver interop proxy (`nodeRequire`, lines 149-159)

The platform `require` is external to the source file; it is modelled
as having produced a raw module object. The proxy returned by
`nodeRequire` is observed through its `get` trap, embedded as
`nodeRequireGet`. -/

/-- A raw module object as returned by the platform `require`:
its heap identity and its string-keyed properties. -/
structure RawModule where
  id : Nat
  props : List (String × JSVal)
deriving DecidableEq, Repr

/-- Property read on a raw module; a missing property reads as
undefined. -/
def rawGet (m : RawModule) (k : String) : JSVal :=
  match m.props.lookup k with
  | some v => v
  | none => .undefined

/-- Lines 151-158 of the source: the interop default is
`mod.__esModule ? mod.default : mod`, and the proxy returns the interop
default for the key `default` and delegates every other read to the raw
module. -/
def nodeRequireGet (m : RawModule) (prop : String) : JSVal :=
  let defaultExport :=
    if truthy (rawGet m "__esModule") then rawGet m "default" else .obj m.id
  if prop = "default" then defaultExport else rawGet m prop

/-! ### Resolution cache (`resolve`, lines 161-176) -/

/-- Environment of the resolver: filesystem probe, url cleaning,
dirname, and the platform resolution search. These are the external
collaborators `fs.existsSync`, `cleanUrl`, `path.dirname`, and
`resolveFrom` used by the source file; `resolveFrom`s boolean
argument requesting implicit extension resolution is folded in.
Modelled from the spec (section 4.4). -/
structure ResolveEnv where
  existsSync : String → Bool
  cleanUrl : String → String
  dirname : String → String
  resolveFrom : String → String → String

/-- Resolver state: the process-wide `resolveCache` plus a probe
counting invocations of the underlying search (the resolution-count
probe of the spec, section 8). -/
structure RState where
  cache : List (String × String)
  searches : Nat
deriving DecidableEq, Repr

/-- Cache key, line 164: `id + importer + root`. String concatenation
with a null importer produces the text "null" in JavaScript. -/
def resolveKey (id : String) (importer : Option String) (root : String) : String :=
  id ++ (match importer with | some s => s | none => "null") ++ root

/-- Lines 163-176 of the source. A cached truthy (nonempty) path
returns immediately; otherwise the resolution directory is the
directory of the importer when the importer is truthy and names an existing
file, else the root, and the search result is cached before being
returned. -/
def resolve (env : ResolveEnv) (id : String) (importer : Option String)
    (root : String) (st : RState) : String × RState :=
  let key := resolveKey id importer root
  let doSearch : String × RState :=
    let resolveDir :=
      match importer with
      | some imp =>
          if imp ≠ "" ∧ env.existsSync (env.cleanUrl imp) then env.dirname imp
          else root
      | none => root
    let resolved := env.resolveFrom id resolveDir
    (resolved, ⟨(key, resolved) :: st.cache.filter (fun e => e.1 ≠ key),
                st.searches + 1⟩)
  match st.cache.lookup key with
  | some c => if c ≠ "" then (c, st) else doSearch
  | none => doSearch

/-! ### Export-all helper (`ssrExportAll`, lines 102-114)

For each enumerable key of the source module other than `default`, an
enumerable, configurable accessor is defined on the current modules
namespace whose getter re-reads the source modules property at access
time. -/

/-- Lines 102-114 of the source, with the key list of the source object
taken at entry (the source object is distinct from the target namespace
whenever the helper is invoked by transformed code). -/
def ssrExportAll (h : Heap) (nsId srcId : Nat) : Heap :=
  (enumKeys (heapGet h srcId)).foldl
    (fun h' k =>
      if k = "default" then h'
      else heapSet h' nsId (setProp (heapGet h' nsId) k ⟨.accessor srcId k, true⟩))
    h

/-! ### Sequential interpreter for the loader core (lines 22-147)

Module bodies are lists of instructions covering the binding surface
injected at lines 117-132: export assignment, static import, a dynamic
one, export-all and throwing. -/

/-- Effect instructions available to a transformed module body. -/
inductive Instr where
  | setExport (k : String) (v : JSVal)
  | importDep (dep : String)
  | dynImport (dep : String)
  | exportAllFrom (dep : String)
  | throwErr (msg : String)
deriving DecidableEq, Repr

/-- Transform pipeline output: executable code plus declared dependency
specifiers (the `{code, deps}` pair the loader reads at lines 65-78). -/
structure TransformResult where
  code : List Instr
  deps : List String
deriving DecidableEq, Repr

/-- Module record of the external graph store, the fields the loader
reads and writes: the export namespace (heap id) and the cached
transform result. Modelled from the spec (sections 3 and 6); the `file`
field is only passed to the external resolver, which is abstracted in
`Env.requireExternal`. -/
structure ModRecord where
  url : String
  ssrModule : Option Nat
  ssrTransformResult : Option TransformResult
deriving DecidableEq, Repr

/-- Environment of the interpreter: the external collaborators.
`unwrap` models `unwrapId` (spec: normalize the identifier to canonical
form); `transform` models `transformRequest` (spec section 6: produces
`{code, deps}` or nothing); `requireExternal` abstracts
`nodeRequire(dep, mod.file, server.config.root)`, whose interop
behaviour is modelled separately by `nodeRequireGet`. -/
structure Env where
  unwrap : String → String
  transform : String → Option TransformResult
  requireExternal : String → JSVal

/-- Observable events of a run: a pre-load of an internal dependency by
the loop at lines 78-82 (tagged with the extended call stack passed to
the recursive load), one execution of a module body (line 117), and the
value received by an import expression inside a body. -/
inductive Ev where
  | preloadCall (stack : List String) (dep : String)
  | bodyExec (url : String)
  | importEv (url : String) (dep : String) (v : JSVal)
deriving DecidableEq, Repr

/-- Interpreter state: the graph stores url-to-record map, the heap of
namespace objects, the set of frozen namespaces, the allocator for
object ids, the keys of `pendingModules` (the in-flight table, line
20), and the event trace. -/
structure World where
  graph : List (String × ModRecord)
  heap : Heap
  frozen : List Nat
  nextId : Nat
  pending : List String
  trace : List Ev
deriving DecidableEq

/-- Failures of a load: the transform pipeline produced no result for
the named url (line 70, whose message names the url), a module body
raised during evaluation of the named url (rethrown at line 142), or
interpreter fuel ran out. -/
inductive LoadErr where
  | transformFailure (url : String)
  | evalFailure (url : String) (msg : String)
  | outOfFuel
deriving DecidableEq, Repr

/-- Record lookup in the graph store (`moduleGraph.urlToModuleMap`). -/
def lookupRec : List (String × ModRecord) → String → Option ModRecord
  | [], _ => none
  | (u, r) :: rest, url => if u = url then some r else lookupRec rest url

/-- Record insertion or replacement in the graph store. -/
def setRec : List (String × ModRecord) → String → ModRecord → List (String × ModRecord)
  | [], url, r => [(url, r)]
  | (u, r') :: rest, url, r =>
      if u = url then (url, r) :: rest else (u, r') :: setRec rest url r

/-- Modelled from the spec (section 6): `ensureEntryFromUrl` returns
the module record for a url, creating an empty one on first access. -/
def ensureEntryFromUrl (w : World) (url : String) : ModRecord × World :=
  match lookupRec w.graph url with
  | some r => (r, w)
  | none =>
      let r : ModRecord := ⟨url, none, none⟩
      (r, { w with graph := setRec w.graph url r })

/-- Update the record for a url in place (mutation of the record object
shared with the graph store). -/
def updateRec (w : World) (url : String) (f : ModRecord → ModRecord) : World :=
  match lookupRec w.graph url with
  | some r => { w with graph := setRec w.graph url (f r) }
  | none => w

/-- Lines 86-92 of the source: the static import function. An external
specifier goes through `nodeRequire`; an internal one is a synchronous
lookup `moduleGraph.urlToModuleMap.get(unwrapId(dep))?.ssrModule`,
yielding undefined when the store has no record or the record has no
namespace yet. -/
def ssrImport (env : Env) (w : World) (dep : String) : JSVal :=
  if isExternal dep then env.requireExternal dep
  else
    match lookupRec w.graph (env.unwrap dep) with
    | some r =>
        match r.ssrModule with
        | some ns => .obj ns
        | none => .undefined
    | none => .undefined

/-- Call forms of the interpreter: the loader front `ssrLoadModule`
(lines 22-43), `instantiateModule` (lines 45-147), the dependency
pre-load loop (lines 78-82), and module body execution (lines
116-143). -/
inductive Call where
  | load (url : String) (stack : List String)
  | inst (url : String) (stack : List String)
  | deps (url : String) (stack : List String) (ds : List String)
  | body (nsId : Nat) (url : String) (stack : List String) (is : List Instr)
deriving DecidableEq

/-- Fuel-based sequential interpreter of the loader. Suspension points
of the source are awaits of calls that complete before anything else
runs in this single-request model, so each call is interpreted as a
direct recursive call. The guaranteed cleanup
`modulePromise.catch(() => \x7b\x7d).then(() => pendingModules.delete(url))`
runs at settlement on success and on failure alike, which the load case
performs on both outcomes. The branch returning an in-flight pending
promise cannot produce a value in a sequential run; it is unreachable
from states whose pending set is contained in the call stack (every
in-flight url of a single request is an ancestor on the stack) and is
interpreted as returning undefined. -/
def exec (env : Env) : Nat → Call → World → Except LoadErr (Option Nat) × World
  | 0, _, w => (.error .outOfFuel, w)
  | n + 1, c, w =>
    match c with
    | .load url stack =>
        let url := env.unwrap url
        let (mod, w) := ensureEntryFromUrl w url
        if url ∈ stack then (.ok mod.ssrModule, w)
        else if url ∈ w.pending then (.ok none, w)
        else
          let w := { w with pending := url :: w.pending }
          match exec env n (.inst url stack) w with
          | (r, w') => (r, { w' with pending := w'.pending.erase url })
    | .inst url stack =>
        let (mod, w) := ensureEntryFromUrl w url
        match mod.ssrModule with
        | some ns =>
            if ns ∈ w.frozen then (.ok (some ns), w)
            else
              let nsId := w.nextId
              let w := { w with
                heap := heapSet w.heap nsId [("__esModule", ⟨.value (.bool true), false⟩)],
                nextId := nsId + 1 }
              let w := updateRec w url (fun r => { r with ssrModule := some nsId })
              match (match mod.ssrTransformResult with
                     | some tr => some tr
                     | none => env.transform url) with
              | none => (.error (.transformFailure url), w)
              | some tr =>
                  match exec env n (.deps url stack tr.deps) w with
                  | (.error e, w') => (.error e, w')
                  | (.ok _, w') =>
                      let w' := { w' with trace := w'.trace ++ [.bodyExec url] }
                      match exec env n (.body nsId url stack tr.code) w' with
                      | (.error e, w'') => (.error e, w'')
                      | (.ok _, w'') =>
                          ((.ok (some nsId)), { w'' with frozen := nsId :: w''.frozen })
        | none =>
            let nsId := w.nextId
            let w := { w with
              heap := heapSet w.heap nsId [("__esModule", ⟨.value (.bool true), false⟩)],
              nextId := nsId + 1 }
            let w := updateRec w url (fun r => { r with ssrModule := some nsId })
            match (match mod.ssrTransformResult with
                   | some tr => some tr
                   | none => env.transform url) with
            | none => (.error (.transformFailure url), w)
            | some tr =>
                match exec env n (.deps url stack tr.deps) w with
                | (.error e, w') => (.error e, w')
                | (.ok _, w') =>
                    let w' := { w' with trace := w'.trace ++ [.bodyExec url] }
                    match exec env n (.body nsId url stack tr.code) w' with
                    | (.error e, w'') => (.error e, w'')
                    | (.ok _, w'') =>
                        ((.ok (some nsId)), { w'' with frozen := nsId :: w''.frozen })
    | .deps url stack ds =>
        match ds with
        | [] => (.ok none, w)
        | d :: rest =>
            if isExternal d then exec env n (.deps url stack rest) w
            else
              let w := { w with trace := w.trace ++ [.preloadCall (stack ++ [url]) d] }
              match exec env n (.load d (stack ++ [url])) w with
              | (.error e, w') => (.error e, w')
              | (.ok _, w') => exec env n (.deps url stack rest) w'
    | .body nsId url stack is =>
        match is with
        | [] => (.ok none, w)
        | i :: rest =>
            match i with
            | .setExport k v =>
                exec env n (.body nsId url stack rest)
                  { w with heap := objSetProp w.heap nsId k v }
            | .importDep dep =>
                let v := ssrImport env w dep
                exec env n (.body nsId url stack rest)
                  { w with trace := w.trace ++ [.importEv url dep v] }
            | .dynImport dep =>
                if isExternal dep then
                  exec env n (.body nsId url stack rest)
                    { w with trace := w.trace ++ [.importEv url dep (env.requireExternal dep)] }
                else
                  match exec env n (.load dep (stack ++ [url])) w with
                  | (.error e, w') => (.error e, w')
                  | (.ok v, w') =>
                      let vv := match v with | some ns => JSVal.obj ns | none => JSVal.undefined
                      exec env n (.body nsId url stack rest)
                        { w' with trace := w'.trace ++ [.importEv url dep vv] }
            | .exportAllFrom dep =>
                match ssrImport env w dep with
                | .obj src =>
                    exec env n (.body nsId url stack rest)
                      { w with heap := ssrExportAll w.heap nsId src }
                | _ => exec env n (.body nsId url stack rest) w
            | .throwErr msg => (.error (.evalFailure url msg), w)

/-- Loader front entry point, named as in the source. -/
def ssrLoadModule (env : Env) (fuel : Nat) (url : String)
    (stack : List String) (w : World) : Except LoadErr (Option Nat) × World :=
  exec env fuel (.load url stack) w

/-- Instantiator entry point, named as in the source. -/
def instantiateModule (env : Env) (fuel : Nat) (url : String)
    (stack : List String) (w : World) : Except LoadErr (Option Nat) × World :=
  exec env fuel (.inst url stack) w

/-! ### Interleaving machine for the loader front (lines 20, 37-42)

Top-level calls to `ssrLoadModule` (empty call stack, so the cycle
check at line 35 never fires) interleave at await points. A call
suspends once at `await moduleGraph.ensureEntryFromUrl(url)` and then
runs the synchronous block of lines 37-41 atomically: check the
pending table; on a hit return the in-flight promise; on a miss start
`instantiateModule` (which suspends at its own first await before the
current microtask yields), record the promise in the table, and chain
the guaranteed cleanup. A running instantiation is an abstract task
that settles nondeterministically; settlement schedules the cleanup
task `pendingModules.delete(url)`, which runs on success and on
failure alike. Callers are identified with the promise id they
receive: callers holding the same promise id observe the same
settlement value, hence the same namespace object. -/

/-- A task of the machine: a top-level load before its first await,
the same load resumed (about to run the synchronous block), a finished
load holding the promise it received, a running instantiation, the
chained cleanup, and a retired slot. -/
inductive CTask where
  | loadStart (url : String)
  | loadResumed (url : String)
  | loadDone (url : String) (pid : Nat)
  | instRun (url : String) (pid : Nat)
  | cleanupT (url : String) (pid : Nat)
  | finished
deriving DecidableEq, Repr

/-- Promise id carried by a task that owns a live instantiation or its
cleanup. -/
def taskPid : CTask → Option Nat
  | .instRun _ p => some p
  | .cleanupT _ p => some p
  | _ => none

/-- Machine state: the task list, the `pendingModules` table, the
history of started instantiations, the settled promise ids, and the
promise id allocator. -/
structure CState where
  tasks : List CTask
  pending : List (String × Nat)
  spawned : List (String × Nat)
  settled : List Nat
  nextProm : Nat
deriving DecidableEq, Repr

/-- First-match lookup in the pending table. -/
def lookupP : List (String × Nat) → String → Option Nat
  | [], _ => none
  | (u, p) :: rest, url => if u = url then some p else lookupP rest url

/-- Deletion from the pending table (`pendingModules.delete(url)`). -/
def eraseP : List (String × Nat) → String → List (String × Nat)
  | [], _ => []
  | e :: rest, url => if e.1 = url then eraseP rest url else e :: eraseP rest url

/-- One interleaving step of the loader front. `resume` completes the
await at line 31; `hit` is the pending-table hit at lines 37-38;
`spawn` is the miss path at lines 39-42, which starts the
instantiation, records the fresh promise in the table and hands it to
the caller atomically; `settle` is the nondeterministic settlement of
a running instantiation, scheduling the chained cleanup; `cleanupRun`
executes `pendingModules.delete(url)`. -/
inductive CStep : CState → CState → Prop
  | resume (s : CState) (i : Nat) (u : String) :
      s.tasks.get? i = some (.loadStart u) →
      CStep s { s with tasks := s.tasks.set i (.loadResumed u) }
  | hit (s : CState) (i : Nat) (u : String) (p : Nat) :
      s.tasks.get? i = some (.loadResumed u) →
      lookupP s.pending u = some p →
      CStep s { s with tasks := s.tasks.set i (.loadDone u p) }
  | spawn (s : CState) (i : Nat) (u : String) :
      s.tasks.get? i = some (.loadResumed u) →
      lookupP s.pending u = none →
      CStep s { s with
        tasks := s.tasks.set i (.loadDone u s.nextProm) ++ [.instRun u s.nextProm],
        pending := (u, s.nextProm) :: s.pending,
        spawned := s.spawned ++ [(u, s.nextProm)],
        nextProm := s.nextProm + 1 }
  | settle (s : CState) (i : Nat) (u : String) (p : Nat) :
      s.tasks.get? i = some (.instRun u p) →
      CStep s { s with tasks := s.tasks.set i (.cleanupT u p), settled := p :: s.settled }
  | cleanupRun (s : CState) (i : Nat) (u : String) (p : Nat) :
      s.tasks.get? i = some (.cleanupT u p) →
      CStep s { s with tasks := s.tasks.set i .finished, pending := eraseP s.pending u }

/-- Reachability of the machine. -/
def CReach : CState → CState → Prop := Relation.ReflTransGen CStep

/-- Initial state: N simultaneous top-level calls for identifier `u`,
empty tables. -/
def initC (N : Nat) (u : String) : CState :=
  ⟨List.replicate N (.loadStart u), [], [], [], 0⟩

/-- Instantiations started for a given identifier. -/
def spawnedFor (s : CState) (u : String) : List (String × Nat) :=
  s.spawned.filter (fun e => e.1 = u)

/-! ### Trace observables and invariants -/

/-- Call stack argument of a call form. -/
def stackLen : Call → Nat
  | .load _ s => s.length
  | .inst _ s => s.length
  | .deps _ s _ => s.length
  | .body _ _ s _ => s.length

/-- Dependency specifiers pre-loaded at a given call-stack tag, in
trace order. -/
def preloadsAt (t : List String) (evs : List Ev) : List String :=
  evs.filterMap (fun e =>
    match e with
    | .preloadCall t' d => if t' = t then some d else none
    | _ => none)

/-- The internal (non-external) specifiers of a dependency list, in
declared order. -/
def internalDeps (ds : List String) : List String :=
  ds.filter (fun d => !(isExternal d))

/-- Invariant of the loader-front machine, preserved by every step
from the initial state. -/
structure CInv (s : CState) : Prop where
  instPend : ∀ u p, CTask.instRun u p ∈ s.tasks →
    lookupP s.pending u = some p ∧ p ∉ s.settled ∧ (u, p) ∈ s.spawned
  cleanPend : ∀ u p, CTask.cleanupT u p ∈ s.tasks →
    lookupP s.pending u = some p ∧ p ∈ s.settled ∧ (u, p) ∈ s.spawned
  doneSpawned : ∀ u p, CTask.loadDone u p ∈ s.tasks → (u, p) ∈ s.spawned
  spawnPend : ∀ u p, (u, p) ∈ s.spawned → p ∉ s.settled → lookupP s.pending u = some p
  pendSpawned : ∀ e, e ∈ s.pending → e ∈ s.spawned
  spawnedFresh : ∀ u p, (u, p) ∈ s.spawned → p < s.nextProm
  settledFresh : ∀ p, p ∈ s.settled → p < s.nextProm
  spawnedNodup : (s.spawned.map Prod.snd).Nodup
  pidsDistinct : ∀ i j p, i ≠ j → (s.tasks.get? i).bind taskPid = some p →
    (s.tasks.get? j).bind taskPid = some p → False

/-! ### Concrete environments and states used as evaluation inputs -/

/-- Environment with a two-module import cycle: `/a.js` imports
`/b.js` and `/b.js` imports `/a.js`. -/
def cycEnv : Env where
  unwrap := fun u => u
  transform := fun u =>
    if u = "/a.js" then some ⟨[.importDep "/b.js", .setExport "x" (.num 1)], ["/b.js"]⟩
    else if u = "/b.js" then some ⟨[.importDep "/a.js"], ["/a.js"]⟩
    else none
  requireExternal := fun _ => .undefined

/-- Environment whose `/e.js` module body throws during evaluation. -/
def envE : Env where
  unwrap := fun u => u
  transform := fun u => if u = "/e.js" then some ⟨[.throwErr "boom"], []⟩ else none
  requireExternal := fun _ => .undefined

/-- Environment with leaf modules for the dependency partition
example. -/
def c4Env : Env where
  unwrap := fun u => u
  transform := fun u =>
    if u = "./x" then some ⟨[], []⟩
    else if u = "/y" then some ⟨[], []⟩
    else none
  requireExternal := fun _ => .undefined

/-- The empty world. -/
def w0 : World := ⟨[], [], [], 0, [], []⟩

/-- World holding one fully loaded, frozen module `/f.js` whose
namespace is object 0. -/
def wFroz : World :=
  ⟨[("/f.js", ⟨"/f.js", some 0, none⟩)],
   [(0, [("__esModule", ⟨.value (.bool true), false⟩)])], [0], 1, [], []⟩

/-- World holding a module `/a.js` mid-instantiation: its namespace
object 0 exists and is recorded but not frozen. -/
def wA : World := ⟨[("/a.js", ⟨"/a.js", some 0, none⟩)], [], [], 1, [], []⟩

/-- States of a concrete two-caller run of the loader-front machine. -/
def cS1 : CState := ⟨[.loadResumed "m", .loadStart "m"], [], [], [], 0⟩

/-- Second concrete machine state: both callers resumed. -/
def cS2 : CState := ⟨[.loadResumed "m", .loadResumed "m"], [], [], [], 0⟩

/-- Third concrete machine state: the first caller spawned the
instantiation. -/
def cS3 : CState :=
  ⟨[.loadDone "m" 0, .loadResumed "m", .instRun "m" 0], [("m", 0)], [("m", 0)], [], 1⟩

/-- Fourth concrete machine state: the second caller joined the
in-flight promise. -/
def cS4 : CState :=
  ⟨[.loadDone "m" 0, .loadDone "m" 0, .instRun "m" 0], [("m", 0)], [("m", 0)], [], 1⟩

/-! ### Helper lemmas -/

theorem lookupProp_setProp_self (o : Obj) (k : String) (d : PropDesc) :
    lookupProp (setProp o k d) k = some d := by
  induction o with
  | nil => simp [setProp, lookupProp]
  | cons e rest ih =>
      obtain ⟨k', d'⟩ := e
      by_cases h : k' = k <;> simp [setProp, lookupProp, h, ih]

theorem lookupProp_setProp_ne (o : Obj) (k k' : String) (d : PropDesc) (h : k' ≠ k) :
    lookupProp (setProp o k d) k' = lookupProp o k' := by
  induction o with
  | nil => simp [setProp, lookupProp, Ne.symm h]
  | cons e rest ih =>
      obtain ⟨k0, d0⟩ := e
      by_cases h0 : k0 = k
      · subst h0
        simp [setProp, lookupProp, Ne.symm h]
      · by_cases h1 : k0 = k' <;> simp [setProp, lookupProp, h0, h1, h, ih]

theorem heapGet_heapSet_self (h : Heap) (oid : Nat) (o : Obj) :
    heapGet (heapSet h oid o) oid = o := by
  induction h with
  | nil => simp [heapSet, heapGet]
  | cons e rest ih =>
      obtain ⟨i, o'⟩ := e
      by_cases hi : i = oid <;> simp [heapSet, heapGet, hi, ih]

theorem heapGet_heapSet_ne (h : Heap) (oid oid' : Nat) (o : Obj) (hne : oid' ≠ oid) :
    heapGet (heapSet h oid o) oid' = heapGet h oid' := by
  induction h with
  | nil => simp [heapSet, heapGet, Ne.symm hne]
  | cons e rest ih =>
      obtain ⟨i, o'⟩ := e
      by_cases hi : i = oid
      · subst hi
        simp [heapSet, heapGet, Ne.symm hne]
      · by_cases hi' : i = oid' <;> simp [heapSet, heapGet, hi, hi', hne, ih]

theorem exportAll_fold_mem (ks : List String) (h : Heap) (ns src : Nat) (k : String)
    (hk : (k ∈ ks ∧ k ≠ "default") ∨
      lookupProp (heapGet h ns) k = some ⟨.accessor src k, true⟩) :
    lookupProp
      (heapGet
        (ks.foldl
          (fun h' k' =>
            if k' = "default" then h'
            else heapSet h' ns (setProp (heapGet h' ns) k' ⟨.accessor src k', true⟩))
          h)
        ns)
      k = some ⟨.accessor src k, true⟩ := by
  induction ks generalizing h with
  | nil =>
      rcases hk with ⟨hmem, _⟩ | hset
      · simp at hmem
      · simpa using hset
  | cons k0 ks ih =>
      simp only [List.foldl_cons]
      apply ih
      by_cases h0 : k0 = "default"
      · simp only [h0, if_pos rfl]
        rcases hk with ⟨hmem, hne⟩ | hset
        · rcases List.mem_cons.mp hmem with rfl | hmem'
          · exact absurd h0 hne
          · exact Or.inl ⟨hmem', hne⟩
        · exact Or.inr hset
      · simp only [if_neg h0]
        rcases hk with ⟨hmem, hne⟩ | hset
        · rcases List.mem_cons.mp hmem with rfl | hmem'
          · exact Or.inr (by rw [heapGet_heapSet_self, lookupProp_setProp_self])
          · exact Or.inl ⟨hmem', hne⟩
        · by_cases hkk : k0 = k
          · subst hkk
            exact Or.inr (by rw [heapGet_heapSet_self, lookupProp_setProp_self])
          · exact Or.inr (by
              rw [heapGet_heapSet_self, lookupProp_setProp_ne _ _ _ _ (fun he => hkk he.symm)]
              exact hset)

/-! ### Claim C5: external default-export interop as section 4.4 states it -/

/-- C5: the proxy returned by the external load exposes every property
of the raw module transparently, except that reading the key `default`
yields the interop-resolved default: the raw module itself when the
module carries no `__esModule` marker, and the raw modules explicit
`default` property when it does, regardless of what the raw module
stores under `default`. -/
theorem nodeRequire_interop (m : RawModule) (p : String) (hp : p ≠ "default") :
    nodeRequireGet m p = rawGet m p ∧
    nodeRequireGet m "default" =
      (if truthy (rawGet m "__esModule") then rawGet m "default" else .obj m.id) := by
  constructor
  · simp [nodeRequireGet, hp]
  · simp [nodeRequireGet]

/-- Witness for C5 at a concrete raw module and key. -/
theorem nodeRequire_interop_witness :
    nodeRequireGet ⟨3, [("x", .num 1)]⟩ "x" = rawGet ⟨3, [("x", .num 1)]⟩ "x" ∧
    nodeRequireGet ⟨3, [("x", .num 1)]⟩ "default" =
      (if truthy (rawGet ⟨3, [("x", .num 1)]⟩ "__esModule")
       then rawGet ⟨3, [("x", .num 1)]⟩ "default" else .obj 3) :=
  nodeRequire_interop ⟨3, [("x", .num 1)]⟩ "x" (by decide)

/-! ### Claim C6: external default-export interop as section 8 states it

Section 8 states the interop backwards: the code (line 151) gives a
legacy-convention module (no `__esModule` marker) the raw module object
itself as its default, not its explicit `default` property, and gives a
current-convention module its explicit `default` property, not the
module object itself. -/

/-- C6 counterexample: a legacy raw module whose `default` property is
the number 5 yields the module object itself (object 7) under the
default key, not the number 5; a current-convention module whose
`default` property is the number 9 yields 9, not the module object. -/
theorem nodeRequire_section8_counterexample :
    nodeRequireGet ⟨7, [("default", .num 5)]⟩ "default" = .obj 7 ∧
    rawGet ⟨7, [("default", .num 5)]⟩ "default" = .num 5 ∧
    ¬ (nodeRequireGet ⟨7, [("default", .num 5)]⟩ "default"
        = rawGet ⟨7, [("default", .num 5)]⟩ "default") ∧
    nodeRequireGet ⟨8, [("__esModule", .bool true), ("default", .num 9)]⟩ "default"
      = .num 9 ∧
    ¬ (nodeRequireGet ⟨8, [("__esModule", .bool true), ("default", .num 9)]⟩ "default"
        = .obj 8) := by
  decide

/-- C6 amended: loading an external dependency authored under the
legacy convention yields a namespace whose default-export key is the
dependency object itself, and loading one authored under the current
convention yields a default-export key equal to its explicit `default`
property. -/
theorem nodeRequire_default_amended (m : RawModule) :
    (truthy (rawGet m "__esModule") = false → nodeRequireGet m "default" = .obj m.id) ∧
    (truthy (rawGet m "__esModule") = true → nodeRequireGet m "default" = rawGet m "default") := by
  constructor <;> intro h <;> simp [nodeRequireGet, h]

/-- Witness for the amended C6 at concrete legacy and current
modules. -/
theorem nodeRequire_default_amended_witness :
    nodeRequireGet ⟨7, [("default", .num 5)]⟩ "default" = .obj 7 ∧
    nodeRequireGet ⟨8, [("__esModule", .bool true), ("default", .num 9)]⟩ "default"
      = .num 9 :=
  ⟨(nodeRequire_default_amended ⟨7, [("default", .num 5)]⟩).1 (by decide),
   (nodeRequire_default_amended ⟨8, [("__esModule", .bool true), ("default", .num 9)]⟩).2
     (by decide)⟩

/-! ### Claim C7: export-all live binding -/

/-- C7: after `ssrExportAll` runs, every enumerable key of the source
except `default` is present on the current namespace as a live
accessor, and reading such an accessor in any later heap in which it is
still installed re-reads the source namespaces property at read time
rather than a snapshot. -/
theorem ssrExportAll_live (h : Heap) (ns src : Nat) (k : String)
    (hk : k ∈ enumKeys (heapGet h src)) (hd : k ≠ "default") :
    lookupProp (heapGet (ssrExportAll h ns src) ns) k = some ⟨.accessor src k, true⟩
    ∧ ∀ (h₂ : Heap) (m oid srcB : Nat) (kA kB : String) (e : Bool),
        lookupProp (heapGet h₂ oid) kA = some ⟨.accessor srcB kB, e⟩ →
        readWith h₂ (m + 1) oid kA = readWith h₂ m srcB kB := by
  constructor
  · exact exportAll_fold_mem _ h ns src k (Or.inl ⟨hk, hd⟩)
  · intro h₂ m oid srcB kA kB e hacc
    simp [readWith, hacc]

/-- Witness for C7: a source object 1 with property `a = 1` is
re-exported onto namespace 0; after the source later changes `a` to 2,
reading `a` through namespace 0 yields 2. -/
theorem ssrExportAll_live_witness :
    lookupProp
      (heapGet (ssrExportAll [(1, [("a", ⟨.value (.num 1), true⟩)])] 0 1) 0) "a"
      = some ⟨.accessor 1 "a", true⟩
    ∧ readWith
        (objSetProp (ssrExportAll [(1, [("a", ⟨.value (.num 1), true⟩)])] 0 1) 1 "a" (.num 2))
        2 0 "a"
      = some (.num 2) := by
  have h := ssrExportAll_live [(1, [("a", ⟨.value (.num 1), true⟩)])] 0 1 "a"
    (by decide) (by decide)
  refine ⟨h.1, ?_⟩
  rw [h.2 _ 1 0 1 "a" "a" true (by decide)]
  decide

/-! ### Claim C8: resolution cache

The cache is keyed by the string concatenation of the dependency id,
the importer (the text "null" when absent) and the root, line 164, not
by the triple itself: distinct triples with equal concatenations share
one cache entry. -/

/-- C8 counterexample: with a search that resolves an id to itself,
the request for triple ("a", "bc", "d") returns the path "ab" cached by
the earlier request for the distinct triple ("ab", "c", "d") because
both concatenate to the key "abcd", while a fresh resolution of
("a", "bc", "d") yields "a". -/
theorem resolve_cache_collision_counterexample :
    (resolve ⟨fun _ => false, fun s => s, fun s => s, fun i _ => i⟩ "a" (some "bc") "d"
       (resolve ⟨fun _ => false, fun s => s, fun s => s, fun i _ => i⟩ "ab" (some "c") "d"
          ⟨[], 0⟩).2).1 = "ab"
    ∧ (resolve ⟨fun _ => false, fun s => s, fun s => s, fun i _ => i⟩ "a" (some "bc") "d"
         ⟨[], 0⟩).1 = "a"
    ∧ ("ab" : String) ≠ "a"
    ∧ resolveKey "a" (some "bc") "d" = resolveKey "ab" (some "c") "d" := by
  decide

/-- Helper: after any resolution, either the cache maps the key to the
returned path, or the call was a cache hit and the state is unchanged
with the cache already mapping the key to the returned path. -/
theorem resolve_cache_after (env : ResolveEnv) (id : String) (importer : Option String)
    (root : String) (st : RState) :
    (resolve env id importer root st).2.cache.lookup (resolveKey id importer root)
      = some (resolve env id importer root st).1
    ∨ (st.cache.lookup (resolveKey id importer root) = some (resolve env id importer root st).1
       ∧ (resolve env id importer root st).2 = st) := by
  cases hcl : st.cache.lookup (resolveKey id importer root) with
  | some c =>
      by_cases hc : c = ""
      · left
        subst hc
        simp only [resolve, hcl]
        simp [List.lookup]
      · right
        simp only [resolve, hcl]
        simp [hc, hcl]
  | none =>
      left
      simp only [resolve, hcl]
      simp [List.lookup]

/-- C8 amended: the cache is keyed by the concatenation of dependency
id, importer (or the text "null"), and root; for every triple, a
repeated resolution returns the same path as the first without
re-invoking the underlying search, provided the resolved path is
nonempty (the code treats a cached empty string as a miss); distinct
triples whose concatenated keys coincide share one entry, so a request
can return a path cached for a different triple. -/
theorem resolve_memoized (env : ResolveEnv) (id : String) (importer : Option String)
    (root : String) (st : RState) (r : String) (st' : RState)
    (h : resolve env id importer root st = (r, st')) (hr : r ≠ "") :
    resolve env id importer root st' = (r, st') := by
  rcases resolve_cache_after env id importer root st with hk | ⟨hk, hst⟩
  · rw [h] at hk
    simp only at hk
    simp only [resolve, hk]
    simp [hr]
  · rw [h] at hk hst
    simp only at hk hst
    subst hst
    simp only [resolve, hk]
    simp [hr]

/-- Witness for the amended C8 at a concrete environment: the second
resolution of the same triple returns the cached path with no state
change. -/
theorem resolve_memoized_witness :
    resolve ⟨fun _ => false, fun s => s, fun s => s, fun i _ => i⟩ "a" none "r"
      (resolve ⟨fun _ => false, fun s => s, fun s => s, fun i _ => i⟩ "a" none "r" ⟨[], 0⟩).2
      = ("a", (resolve ⟨fun _ => false, fun s => s, fun s => s, fun i _ => i⟩ "a" none "r"
          ⟨[], 0⟩).2) :=
  resolve_memoized ⟨fun _ => false, fun s => s, fun s => s, fun i _ => i⟩ "a" none "r"
    ⟨[], 0⟩ "a" _ (by decide) (by decide)

theorem ensureEntry_frame (w : World) (url : String) :
    (ensureEntryFromUrl w url).2.pending = w.pending ∧
    (ensureEntryFromUrl w url).2.trace = w.trace ∧
    (ensureEntryFromUrl w url).2.frozen = w.frozen := by
  unfold ensureEntryFromUrl
  cases lookupRec w.graph url <;> simp

theorem updateRec_frame (w : World) (url : String) (f : ModRecord → ModRecord) :
    (updateRec w url f).pending = w.pending ∧ (updateRec w url f).trace = w.trace := by
  unfold updateRec
  cases lookupRec w.graph url <;> simp

theorem exec_frame (env : Env) :
    ∀ (n : Nat) (c : Call) (w : World),
      (exec env n c w).2.pending = w.pending ∧
      ∃ Δ, (exec env n c w).2.trace = w.trace ++ Δ ∧
        ∀ t d, Ev.preloadCall t d ∈ Δ → stackLen c < t.length := by
  intro n
  induction n with
  | zero =>
      intro c w
      exact ⟨rfl, [], by simp [exec], by simp⟩
  | succ n ih =>
      intro c w
      cases c with
      | load url stack =>
          simp only [exec]
          rcases hE : ensureEntryFromUrl w (env.unwrap url) with ⟨mod, w1⟩
          have hF := ensureEntry_frame w (env.unwrap url)
          rw [hE] at hF
          dsimp only at hF
          obtain ⟨hFp, hFt, _⟩ := hF
          by_cases hin : env.unwrap url ∈ stack
          · simp only [if_pos hin]
            exact ⟨hFp, [], by simp [hFt], by simp⟩
          · simp only [if_neg hin]
            by_cases hpd : env.unwrap url ∈ w1.pending
            · simp only [if_pos hpd]
              exact ⟨hFp, [], by simp [hFt], by simp⟩
            · simp only [if_neg hpd]
              rcases hI : exec env n (.inst (env.unwrap url) stack)
                  { w1 with pending := env.unwrap url :: w1.pending } with ⟨r, w3⟩
              obtain ⟨hIp, Δ, hIt, hIb⟩ :=
                ih (.inst (env.unwrap url) stack)
                  { w1 with pending := env.unwrap url :: w1.pending }
              rw [hI] at hIp hIt
              dsimp only at hIp hIt
              refine ⟨?_, Δ, ?_, ?_⟩
              · dsimp only
                rw [hIp, List.erase_cons_head, hFp]
              · dsimp only
                rw [hIt, hFt]
              · exact hIb
      | inst url stack =>
          simp only [exec]
          rcases hE : ensureEntryFromUrl w url with ⟨mod, w1⟩
          have hF := ensureEntry_frame w url
          rw [hE] at hF
          dsimp only at hF
          obtain ⟨hFp, hFt, hFz⟩ := hF
          cases hm : mod.ssrModule with
          | some ns =>
              by_cases hfz : ns ∈ w1.frozen
              · simp only [if_pos hfz]
                exact ⟨hFp, [], by simp [hFt], by simp⟩
              · simp only [if_neg hfz]
                have hU := updateRec_frame
                  { w1 with
                    heap := heapSet w1.heap w1.nextId
                      [("__esModule", ⟨.value (.bool true), false⟩)],
                    nextId := w1.nextId + 1 } url
                  (fun r => { r with ssrModule := some w1.nextId })
                obtain ⟨hUp, hUt⟩ := hU
                cases htr : (match mod.ssrTransformResult with
                    | some tr => some tr
                    | none => env.transform url) with
                | none =>
                    refine ⟨?_, [], ?_, by simp⟩
                    · dsimp only
                      rw [hUp]
                      exact hFp
                    · dsimp only
                      rw [hUt]
                      simp [hFt]
                | some tr =>
                    dsimp only
                    obtain ⟨hDp, ΔD, hDt, hDb⟩ := ih (.deps url stack tr.deps)
                        (updateRec
                          { w1 with
                            heap := heapSet w1.heap w1.nextId
                              [("__esModule", ⟨.value (.bool true), false⟩)],
                            nextId := w1.nextId + 1 } url
                          (fun r => { r with ssrModule := some w1.nextId }))
                    rw [hUp] at hDp
                    rw [hUt] at hDt
                    dsimp only at hDp hDt
                    split
                    next x e w4 hD =>
                        rw [hD] at hDp hDt
                        dsimp only at hDp hDt
                        refine ⟨?_, ΔD, ?_, ?_⟩
                        · dsimp only
                          rw [hDp]
                          exact hFp
                        · dsimp only
                          rw [hDt]
                          simp [hFt]
                        · exact hDb
                    next x vd w4 hD =>
                        rw [hD] at hDp hDt
                        dsimp only at hDp hDt
                        obtain ⟨hBp, ΔB, hBt, hBb⟩ := ih (.body w1.nextId url stack tr.code)
                            { w4 with trace := w4.trace ++ [.bodyExec url] }
                        dsimp only at hBp hBt
                        have hPend : ∀ w6 : World,
                            (exec env n (.body w1.nextId url stack tr.code)
                              { w4 with trace := w4.trace ++ [.bodyExec url] }).2 = w6 →
                            w6.pending = w.pending := by
                          intro w6 hw6
                          rw [← hw6, hBp, hDp]
                          exact hFp
                        have hTr : ∀ w6 : World,
                            (exec env n (.body w1.nextId url stack tr.code)
                              { w4 with trace := w4.trace ++ [.bodyExec url] }).2 = w6 →
                            w6.trace = w.trace ++ (ΔD ++ Ev.bodyExec url :: ΔB) := by
                          intro w6 hw6
                          rw [← hw6, hBt]
                          rw [hDt, hFt]
                          simp
                        have hBnd : ∀ t d, Ev.preloadCall t d ∈ ΔD ++ Ev.bodyExec url :: ΔB →
                            stack.length < t.length := by
                          intro t d hmem
                          rcases List.mem_append.mp hmem with hmem | hmem
                          · exact hDb t d hmem
                          · rcases List.mem_cons.mp hmem with hmem | hmem
                            · exact absurd hmem (by simp)
                            · exact hBb t d hmem
                        split
                        next x e w6 hB => exact ⟨hPend w6 (by rw [hB]), ΔD ++ Ev.bodyExec url :: ΔB,
                          hTr w6 (by rw [hB]), hBnd⟩
                        next x vb w6 hB => exact ⟨hPend w6 (by rw [hB]), ΔD ++ Ev.bodyExec url :: ΔB,
                          hTr w6 (by rw [hB]), hBnd⟩
          | none =>
              have hU := updateRec_frame
                { w1 with
                  heap := heapSet w1.heap w1.nextId
                    [("__esModule", ⟨.value (.bool true), false⟩)],
                  nextId := w1.nextId + 1 } url
                (fun r => { r with ssrModule := some w1.nextId })
              obtain ⟨hUp, hUt⟩ := hU
              cases htr : (match mod.ssrTransformResult with
                  | some tr => some tr
                  | none => env.transform url) with
              | none =>
                  refine ⟨?_, [], ?_, by simp⟩
                  · dsimp only
                    rw [hUp]
                    exact hFp
                  · dsimp only
                    rw [hUt]
                    simp [hFt]
              | some tr =>
                  dsimp only
                  obtain ⟨hDp, ΔD, hDt, hDb⟩ := ih (.deps url stack tr.deps)
                      (updateRec
                        { w1 with
                          heap := heapSet w1.heap w1.nextId
                            [("__esModule", ⟨.value (.bool true), false⟩)],
                          nextId := w1.nextId + 1 } url
                        (fun r => { r with ssrModule := some w1.nextId }))
                  rw [hUp] at hDp
                  rw [hUt] at hDt
                  dsimp only at hDp hDt
                  split
                  next x e w4 hD =>
                      rw [hD] at hDp hDt
                      dsimp only at hDp hDt
                      refine ⟨?_, ΔD, ?_, ?_⟩
                      · dsimp only
                        rw [hDp]
                        exact hFp
                      · dsimp only
                        rw [hDt]
                        simp [hFt]
                      · exact hDb
                  next x vd w4 hD =>
                      rw [hD] at hDp hDt
                      dsimp only at hDp hDt
                      obtain ⟨hBp, ΔB, hBt, hBb⟩ := ih (.body w1.nextId url stack tr.code)
                          { w4 with trace := w4.trace ++ [.bodyExec url] }
                      dsimp only at hBp hBt
                      have hPend : ∀ w6 : World,
                          (exec env n (.body w1.nextId url stack tr.code)
                            { w4 with trace := w4.trace ++ [.bodyExec url] }).2 = w6 →
                          w6.pending = w.pending := by
                        intro w6 hw6
                        rw [← hw6, hBp, hDp]
                        exact hFp
                      have hTr : ∀ w6 : World,
                          (exec env n (.body w1.nextId url stack tr.code)
                            { w4 with trace := w4.trace ++ [.bodyExec url] }).2 = w6 →
                          w6.trace = w.trace ++ (ΔD ++ Ev.bodyExec url :: ΔB) := by
                        intro w6 hw6
                        rw [← hw6, hBt]
                        rw [hDt, hFt]
                        simp
                      have hBnd : ∀ t d, Ev.preloadCall t d ∈ ΔD ++ Ev.bodyExec url :: ΔB →
                          stack.length < t.length := by
                        intro t d hmem
                        rcases List.mem_append.mp hmem with hmem | hmem
                        · exact hDb t d hmem
                        · rcases List.mem_cons.mp hmem with hmem | hmem
                          · exact absurd hmem (by simp)
                          · exact hBb t d hmem
                      split
                      next x e w6 hB => exact ⟨hPend w6 (by rw [hB]), ΔD ++ Ev.bodyExec url :: ΔB,
                        hTr w6 (by rw [hB]), hBnd⟩
                      next x vb w6 hB => exact ⟨hPend w6 (by rw [hB]), ΔD ++ Ev.bodyExec url :: ΔB,
                        hTr w6 (by rw [hB]), hBnd⟩
      | deps url stack ds =>
          cases ds with
          | nil =>
              simp only [exec]
              refine ⟨?_, [], ?_, ?_⟩ <;> simp
          | cons d rest =>
              simp only [exec]
              by_cases hex : isExternal d
          
    
              · rw [if_pos hex]
                exact ih (.deps url stack rest) w
              · rw [if_neg hex]
                obtain ⟨hLp, ΔL, hLt, hLb⟩ := ih (.load d (stack ++ [url]))
                  { w with trace := w.trace ++ [.preloadCall (stack ++ [url]) d] }
                dsimp only at hLp hLt
                split
                next x e w2 hL =>
                    rw [hL] at hLp hLt
                    dsimp only at hLp hLt
                    refine ⟨hLp, Ev.preloadCall (stack ++ [url]) d :: ΔL, ?_, ?_⟩
                    · dsimp only
                      rw [hLt]
                      simp
                    · intro t d2 hmem
                      rcases List.mem_cons.mp hmem with hmem | hmem
                      · cases hmem
                        simp [stackLen]
                      · have := hLb t d2 hmem
                        simp only [stackLen] at this ⊢
                        have h2 : stack.length ≤ (stack ++ [url]).length := by simp
                        exact lt_of_le_of_lt h2 this
                next x vd w2 hL =>
                    rw [hL] at hLp hLt
                    dsimp only at hLp hLt
                    obtain ⟨hRp, ΔR, hRt, hRb⟩ := ih (.deps url stack rest) w2
                    refine ⟨by rw [hRp, hLp], Ev.preloadCall (stack ++ [url]) d :: (ΔL ++ ΔR), ?_, ?_⟩
                    · rw [hRt, hLt]
                      simp
                    · intro t d2 hmem
                      rcases List.mem_cons.mp hmem with hmem | hmem
                      · cases hmem
                        simp [stackLen]
                      · rcases List.mem_append.mp hmem with hmem | hmem
                        · have := hLb t d2 hmem
                          simp only [stackLen] at this ⊢
                          have h2 : stack.length ≤ (stack ++ [url]).length := by simp
                          exact lt_of_le_of_lt h2 this
                        · exact hRb t d2 hmem
      | body nsId url stack is =>
          cases is with
          | nil =>
              simp only [exec]
              refine ⟨?_, [], ?_, ?_⟩ <;> simp
          | cons i rest =>
              cases i with
              | setExport k v =>
                  simp only [exec]
                  exact ih (.body nsId url stack rest) { w with heap := objSetProp w.heap nsId k v }
              | importDep dep =>
                  simp only [exec]
                  obtain ⟨hp, Δ, ht, hb⟩ := ih (.body nsId url stack rest)
                    { w with trace := w.trace ++ [.importEv url dep (ssrImport env w dep)] }
                  dsimp only at hp ht
                  refine ⟨hp, Ev.importEv url dep (ssrImport env w dep) :: Δ, ?_, ?_⟩
                  · rw [ht]
                    simp
                  · intro t d2 hmem
                    rcases List.mem_cons.mp hmem with hmem | hmem
                    · cases hmem
                    · exact hb t d2 hmem
              | dynImport dep =>
                  simp only [exec]
                  by_cases hex : isExternal dep
                  · rw [if_pos hex]
                    obtain ⟨hp, Δ, ht, hb⟩ := ih (.body nsId url stack rest)
                      { w with trace := w.trace ++ [.importEv url dep (env.requireExternal dep)] }
                    dsimp only at hp ht
                    refine ⟨hp, Ev.importEv url dep (env.requireExternal dep) :: Δ, ?_, ?_⟩
                    · rw [ht]
                      simp
                    · intro t d2 hmem
                      rcases List.mem_cons.mp hmem with hmem | hmem
                      · cases hmem
                      · exact hb t d2 hmem
                  · rw [if_neg hex]
                    obtain ⟨hLp, ΔL, hLt, hLb⟩ := ih (.load dep (stack ++ [url])) w
                    split
                    next x e w2 hL =>
                        rw [hL] at hLp hLt
                        dsimp only at hLp hLt
                        refine ⟨hLp, ΔL, hLt, ?_⟩
                        · intro t d2 hmem
                          have := hLb t d2 hmem
                          simp only [stackLen] at this ⊢
                          have h2 : stack.length ≤ (stack ++ [url]).length := by simp
                          exact lt_of_le_of_lt h2 this
                    next x vd w2 hL =>
                        rw [hL] at hLp hLt
                        dsimp only at hLp hLt
                        cases vd with
                        | some ns2 =>
                            obtain ⟨hRp, ΔR, hRt, hRb⟩ := ih (.body nsId url stack rest)
                              { w2 with trace := w2.trace ++ [.importEv url dep (JSVal.obj ns2)] }
                            dsimp only at hRp hRt
                            refine ⟨by rw [hRp, hLp], ΔL ++ Ev.importEv url dep (JSVal.obj ns2) :: ΔR, ?_, ?_⟩
                            · rw [hRt, hLt]
                              simp
                            · intro t d2 hmem
                              rcases List.mem_append.mp hmem with hmem | hmem
                              · have := hLb t d2 hmem
                                simp only [stackLen] at this ⊢
                                have h2 : stack.length ≤ (stack ++ [url]).length := by simp
                                exact lt_of_le_of_lt h2 this
                              · rcases List.mem_cons.mp hmem with hmem | hmem
                                · cases hmem
                                · exact hRb t d2 hmem
                        | none =>
                            obtain ⟨hRp, ΔR, hRt, hRb⟩ := ih (.body nsId url stack rest)
                              { w2 with trace := w2.trace ++ [.importEv url dep JSVal.undefined] }
                            dsimp only at hRp hRt
                            refine ⟨by rw [hRp, hLp], ΔL ++ Ev.importEv url dep JSVal.undefined :: ΔR, ?_, ?_⟩
                            · rw [hRt, hLt]
                              simp
                            · intro t d2 hmem
                              rcases List.mem_append.mp hmem with hmem | hmem
                              · have := hLb t d2 hmem
                                simp only [stackLen] at this ⊢
                                have h2 : stack.length ≤ (stack ++ [url]).length := by simp
                                exact lt_of_le_of_lt h2 this
                              · rcases List.mem_cons.mp hmem with hmem | hmem
                                · cases hmem
                                · exact hRb t d2 hmem
              | exportAllFrom dep =>
                  simp only [exec]
                  cases hv : ssrImport env w dep with
                  | obj src =>
                      exact ih (.body nsId url stack rest)
                        { w with heap := ssrExportAll w.heap nsId src }
                  | undefined => exact ih (.body nsId url stack rest) w
                  | bool b => exact ih (.body nsId url stack rest) w
                  | num m => exact ih (.body nsId url stack rest) w
                  | str s2 => exact ih (.body nsId url stack rest) w
              | throwErr msg =>
                  simp only [exec]
                  refine ⟨?_, [], ?_, ?_⟩ <;> simp

theorem preloadsAt_append (t : List String) (l1 l2 : List Ev) :
    preloadsAt t (l1 ++ l2) = preloadsAt t l1 ++ preloadsAt t l2 := by
  simp [preloadsAt, List.filterMap_append]

theorem exec_deps_preloads (env : Env) :
    ∀ (n : Nat) (url : String) (stack : List String) (ds : List String) (w : World)
      (v : Option Nat) (w' : World),
      exec env n (.deps url stack ds) w = (.ok v, w') →
      preloadsAt (stack ++ [url]) w'.trace
        = preloadsAt (stack ++ [url]) w.trace ++ internalDeps ds := by
  intro n
  induction n with
  | zero =>
      intro url stack ds w v w' h
      exact absurd (congrArg Prod.fst h) (by simp [exec])
  | succ n ih =>
      intro url stack ds w v w' h
      cases ds with
      | nil =>
          simp only [exec] at h
          have hw : w' = w := congrArg Prod.snd h.symm
          subst hw
          simp [internalDeps]
      | cons d rest =>
          simp only [exec] at h
          by_cases hex : isExternal d
          · rw [if_pos hex] at h
            have hrest := ih url stack rest w v w' h
            rw [hrest]
            simp [internalDeps, hex]
          · rw [if_neg hex] at h
            rcases hL : exec env n (.load d (stack ++ [url]))
                { w with trace := w.trace ++ [.preloadCall (stack ++ [url]) d] } with ⟨rL, w2⟩
            rw [hL] at h
            cases rL with
            | error e => exact absurd (congrArg Prod.fst h) (by simp)
            | ok v2 =>
                have hrest := ih url stack rest w2 v w' h
                obtain ⟨_, ΔL, hLt, hLb⟩ := exec_frame env n (.load d (stack ++ [url]))
                  { w with trace := w.trace ++ [.preloadCall (stack ++ [url]) d] }
                rw [hL] at hLt
                dsimp only at hLt
                have hΔL : preloadsAt (stack ++ [url]) ΔL = [] := by
                  refine List.filterMap_eq_nil.mpr ?_
                  intro e he
                  cases e with
                  | preloadCall t2 d2 =>
                      have hlt := hLb t2 d2 he
                      simp only [stackLen] at hlt
                      have hne : ¬ (t2 = stack ++ [url]) := by
                        intro heq
                        subst heq
                        exact lt_irrefl _ hlt
                      simp [hne]
                  | bodyExec u2 => rfl
                  | importEv u2 d2 v3 => rfl
                rw [hrest, hLt, preloadsAt_append, preloadsAt_append]
                have hone : preloadsAt (stack ++ [url]) [Ev.preloadCall (stack ++ [url]) d] = [d] := by
                  simp [preloadsAt]
                rw [hone, hΔL]
                simp [internalDeps, hex]

/-- Claim C2: if the identifier (after normalization) already appears in the
call stack, `ssrLoadModule` returns the records current export namespace
immediately, with no instantiation, no body execution and no state change;
the namespace is non-null whenever every stacked identifier has a record
with an assigned namespace, which holds because `instantiateModule`
assigns the fresh namespace to the record before any dependency or
transform work. Concretely, loading the cyclic graph in which `/a.js`
needs `/b.js` and `/b.js` needs `/a.js` back terminates with a frozen
namespace, and the body of `/b.js` receives the namespace object of
`/a.js` (object 0), not undefined and not an error. -/
theorem ssrLoadModule_cycle_safe :
    (∀ (env : Env) (n : Nat) (url : String) (stack : List String) (w : World),
      env.unwrap url ∈ stack →
      (∀ u ∈ stack, ∃ r ns, lookupRec w.graph u = some r ∧ r.ssrModule = some ns) →
      ∃ r ns, lookupRec w.graph (env.unwrap url) = some r ∧ r.ssrModule = some ns ∧
        exec env (n + 1) (.load url stack) w = (.ok (some ns), w))
    ∧ (exec cycEnv 20 (.load "/a.js" []) w0).1 = .ok (some 0)
    ∧ Ev.importEv "/b.js" "/a.js" (.obj 0) ∈ (exec cycEnv 20 (.load "/a.js" []) w0).2.trace
    ∧ (∃ r, lookupRec (exec cycEnv 20 (.load "/a.js" []) w0).2.graph "/a.js" = some r
          ∧ r.ssrModule = some 0)
    ∧ (0 : Nat) ∈ (exec cycEnv 20 (.load "/a.js" []) w0).2.frozen := by
  refine ⟨?_, rfl, by decide, ⟨⟨"/a.js", some 0, none⟩, by decide, rfl⟩, by decide⟩
  intro env n url stack w hin hstk
  obtain ⟨r, ns, hr, hns⟩ := hstk _ hin
  refine ⟨r, ns, hr, hns, ?_⟩
  simp only [exec, ensureEntryFromUrl, hr]
  rw [if_pos hin]
  rw [hns]

/-- Witness for C2: the general cycle-return statement applied at a
concrete mid-instantiation state. -/
theorem ssrLoadModule_cycle_safe_witness :
    exec cycEnv 5 (.load "/a.js" ["/a.js"]) wA = (.ok (some 0), wA) := by
  obtain ⟨r, ns, hr, hns, he⟩ := ssrLoadModule_cycle_safe.1 cycEnv 4 "/a.js" ["/a.js"] wA
    (by decide)
    (by
      intro u hu
      simp only [List.mem_singleton] at hu
      subst hu
      exact ⟨⟨"/a.js", some 0, none⟩, 0, rfl, rfl⟩)
  have hr2 : lookupRec wA.graph "/a.js" = some (⟨"/a.js", some 0, none⟩ : ModRecord) := rfl
  have hr3 : some (⟨"/a.js", some 0, none⟩ : ModRecord) = some r := hr2.symm.trans hr
  cases hr3
  cases hns
  exact he

/-- Claim C3: once a load has produced a frozen namespace for an
identifier, every later `ssrLoadModule` of that identifier (with no
in-flight entry) returns the identical namespace object and leaves the
entire world unchanged: `instantiateModule` short-circuits on a frozen
recorded namespace, so the module body is not re-executed. -/
theorem ssrLoadModule_idempotent (env : Env) (n : Nat) (url : String) (stack : List String)
    (w : World) (r : ModRecord) (ns : Nat)
    (hr : lookupRec w.graph (env.unwrap url) = some r)
    (hns : r.ssrModule = some ns)
    (hfz : ns ∈ w.frozen)
    (hp : env.unwrap url ∉ w.pending) :
    exec env (n + 2) (.load url stack) w = (.ok (some ns), w) := by
  by_cases hin : env.unwrap url ∈ stack
  · simp only [exec, ensureEntryFromUrl, hr]
    rw [if_pos hin, hns]
  · simp only [exec, ensureEntryFromUrl, hr]
    rw [if_neg hin, if_neg hp]
    rw [hns]
    dsimp only
    rw [if_pos hfz]
    dsimp only
    rw [List.erase_cons_head]

theorem ssrLoadModule_idempotent_witness :
    exec cycEnv 5 (.load "/f.js" []) wFroz = (.ok (some 0), wFroz) :=
  ssrLoadModule_idempotent cycEnv 3 "/f.js" [] wFroz ⟨"/f.js", some 0, none⟩ 0 rfl rfl
    (by decide) (by decide)

theorem lookupRec_setRec_self (g : List (String × ModRecord)) (url : String) (r : ModRecord) :
    lookupRec (setRec g url r) url = some r := by
  induction g with
  | nil => simp [setRec, lookupRec]
  | cons e rest ih =>
      obtain ⟨u0, r0⟩ := e
      by_cases h0 : u0 = url <;> simp [setRec, lookupRec, h0, ih]

/-- Claim C9: failure contract. If neither the record nor the transform
pipeline yields a transform result, the load rejects with
`transformFailure` carrying the identifier (the source message names the
url, line 70); the pending table is restored on every outcome (success,
transform failure, or evaluation failure), so a later load starts fresh;
and a module body that throws propagates `evalFailure` to the caller
unswallowed, shown at a concrete world, with the pending entry removed. -/
theorem load_failure_contract :
    (∀ (env : Env) (n : Nat) (url : String) (stack : List String) (w : World),
      env.unwrap url ∉ stack →
      env.unwrap url ∉ w.pending →
      (∀ r, lookupRec w.graph (env.unwrap url) = some r →
        r.ssrTransformResult = none ∧ r.ssrModule = none) →
      env.transform (env.unwrap url) = none →
      (exec env (n + 2) (.load url stack) w).1
          = .error (.transformFailure (env.unwrap url))
        ∧ (exec env (n + 2) (.load url stack) w).2.pending = w.pending)
    ∧ (∀ (env : Env) (n : Nat) (url : String) (stack : List String) (w : World),
        (exec env n (.load url stack) w).2.pending = w.pending)
    ∧ (exec envE 10 (.load "/e.js" []) w0).1 = .error (.evalFailure "/e.js" "boom")
    ∧ (exec envE 10 (.load "/e.js" []) w0).2.pending = [] := by
  refine ⟨?_, ?_, rfl, rfl⟩
  · intro env n url stack w hin hp hrec htrans
    refine ⟨?_, (exec_frame env (n + 2) (.load url stack) w).1⟩
    cases hlr : lookupRec w.graph (env.unwrap url) with
    | some r =>
        obtain ⟨htr, hm⟩ := hrec r hlr
        simp only [exec, ensureEntryFromUrl, hlr]
        rw [if_neg hin, if_neg hp]
        rw [hm]
        dsimp only
        rw [htr]
        dsimp only
        rw [htrans]
    | none =>
        simp only [exec, ensureEntryFromUrl, hlr, lookupRec_setRec_self]
        rw [if_neg hin, if_neg hp]
        dsimp only
        rw [htrans]
  · exact fun env n url stack w => (exec_frame env n (.load url stack) w).1

/-- Witness for C9: the transform-failure statement applied at a
concrete environment with no transform result for the url. -/
theorem load_failure_contract_witness :
    (exec cycEnv 5 (.load "/none.js" []) w0).1
        = .error (.transformFailure "/none.js")
      ∧ (exec cycEnv 5 (.load "/none.js" []) w0).2.pending = [] := by
  have h := load_failure_contract.1 cycEnv 3 "/none.js" [] w0 (by decide) (by decide)
    (fun r hr => nomatch hr) (by decide)
  exact h

/-- Claim C10: for an internal dependency specifier, the injected
static import is synchronous and total: it appends one import event
carrying `ssrImport` of the current store and continues with the world
otherwise unchanged (no await, no instantiation, no exception), and its
value is exactly the export namespace currently recorded in the graph
store for the normalized specifier, undefined when the store has no
record or the record has no namespace yet. -/
theorem ssrImport_internal_sync (env : Env) (w : World) (dep : String)
    (hex : isExternal dep = false) :
    (∀ (n : Nat) (nsId : Nat) (url : String) (stack : List String) (is : List Instr),
      exec env (n + 1) (.body nsId url stack (.importDep dep :: is)) w
        = exec env n (.body nsId url stack is)
            { w with trace := w.trace ++ [.importEv url dep (ssrImport env w dep)] })
    ∧ (ssrImport env w dep = .undefined ↔
        lookupRec w.graph (env.unwrap dep) = none
        ∨ ∃ r, lookupRec w.graph (env.unwrap dep) = some r ∧ r.ssrModule = none)
    ∧ (∀ nsid, ssrImport env w dep = .obj nsid ↔
        ∃ r, lookupRec w.graph (env.unwrap dep) = some r ∧ r.ssrModule = some nsid) := by
  refine ⟨?_, ?_, ?_⟩
  · intro n nsId url stack is
    simp only [exec]
  · cases hlr : lookupRec w.graph (env.unwrap dep) with
    | none => simp [ssrImport, hex, hlr]
    | some r =>
        cases hm : r.ssrModule with
        | none => simp [ssrImport, hex, hlr, hm]
        | some ns => simp [ssrImport, hex, hlr, hm]
  · intro nsid
    cases hlr : lookupRec w.graph (env.unwrap dep) with
    | none => simp [ssrImport, hex, hlr]
    | some r =>
        cases hm : r.ssrModule with
        | none => simp [ssrImport, hex, hlr, hm]
        | some ns => simp [ssrImport, hex, hlr, hm]

/-- Witness for C10 at a concrete store with a loaded record and a
missing record. -/
theorem ssrImport_internal_sync_witness :
    ssrImport cycEnv wFroz "/f.js" = .obj 0 ∧
    exec cycEnv 1 (.body 0 "/f.js" [] [.importDep "/m.js"]) wFroz
      = exec cycEnv 0 (.body 0 "/f.js" [] [])
          { wFroz with trace := wFroz.trace
              ++ [.importEv "/f.js" "/m.js" (ssrImport cycEnv wFroz "/m.js")] } := by
  constructor
  · exact ((ssrImport_internal_sync cycEnv wFroz "/f.js" (by decide)).2.2 0).mpr
      ⟨⟨"/f.js", some 0, none⟩, rfl, rfl⟩
  · exact (ssrImport_internal_sync cycEnv wFroz "/m.js" (by decide)).1 0 0 "/f.js" [] []

/-- Claim C4: dependency partition and pre-load order. A specifier is
internal exactly when its first character is a dot or a slash; during the
pre-load loop, the internal dependencies are loaded in declared order
with the call stack extended by the current identifier (each recursive
load runs to completion before the next begins in the sequential
semantics), and external specifiers are not pre-loaded: the pre-load
events tagged with this instantiations extended stack are exactly the
internal specifiers in declared order. -/
theorem instantiateModule_dep_partition :
    (∀ d : String, isExternal d = false ↔ (d.data.head? = some '.' ∨ d.data.head? = some '/'))
    ∧ (∀ (env : Env) (n : Nat) (url : String) (stack : List String) (ds : List String)
        (w : World) (v : Option Nat) (w' : World),
        exec env n (.deps url stack ds) w = (.ok v, w') →
        preloadsAt (stack ++ [url]) w'.trace
          = preloadsAt (stack ++ [url]) w.trace ++ internalDeps ds) := by
  constructor
  · intro d
    cases hd : d.data with
    | nil => simp [isExternal, hd]
    | cons c cs =>
        by_cases hc : c = '.' <;> by_cases hc2 : c = '/' <;>
          simp [isExternal, hd, hc, hc2]
  · exact fun env => exec_deps_preloads env

/-- Witness for C4 at a concrete dependency list mixing internal and
external specifiers. -/
theorem instantiateModule_dep_partition_witness :
    preloadsAt ["/m.js"] (exec c4Env 10 (.deps "/m.js" [] ["./x", "pkg", "/y"]) w0).2.trace
      = ["./x", "/y"] ∧ isExternal "pkg" = true ∧ isExternal "./x" = false := by
  refine ⟨?_, by decide, by decide⟩
  have h1 : (exec c4Env 10 (.deps "/m.js" [] ["./x", "pkg", "/y"]) w0).1 = .ok none := rfl
  have h2 : exec c4Env 10 (.deps "/m.js" [] ["./x", "pkg", "/y"]) w0
      = ((exec c4Env 10 (.deps "/m.js" [] ["./x", "pkg", "/y"]) w0).1,
         (exec c4Env 10 (.deps "/m.js" [] ["./x", "pkg", "/y"]) w0).2) := rfl
  rw [h1] at h2
  have h3 := instantiateModule_dep_partition.2 c4Env 10 "/m.js" [] ["./x", "pkg", "/y"] w0
    none _ h2
  simp only [List.nil_append] at h3
  rw [h3]
  decide

/-! C1 helper lemmas -/

theorem lookupP_mem {l : List (String × Nat)} {u : String} {p : Nat}
    (h : lookupP l u = some p) : (u, p) ∈ l := by
  induction l with
  | nil => simp [lookupP] at h
  | cons e rest ih =>
      obtain ⟨u0, p0⟩ := e
      by_cases h0 : u0 = u
      · subst h0
        simp [lookupP] at h
        subst h
        exact List.mem_cons_self _ _
      · simp only [lookupP, if_neg h0] at h
        exact List.mem_cons_of_mem _ (ih h)

theorem lookupP_eraseP_self (l : List (String × Nat)) (u : String) :
    lookupP (eraseP l u) u = none := by
  induction l with
  | nil => rfl
  | cons e rest ih =>
      obtain ⟨u0, p0⟩ := e
      by_cases h0 : u0 = u
      · simpa [eraseP, h0] using ih
      · simpa [eraseP, lookupP, h0] using ih

theorem lookupP_eraseP_ne (l : List (String × Nat)) (u u' : String) (h : u' ≠ u) :
    lookupP (eraseP l u) u' = lookupP l u' := by
  induction l with
  | nil => rfl
  | cons e rest ih =>
      obtain ⟨u0, p0⟩ := e
      by_cases h0 : u0 = u
      · subst h0
        simp [eraseP, lookupP, Ne.symm h, ih]
      · by_cases h1 : u0 = u'
        · subst h1
          simp [eraseP, lookupP, h0]
        · simp [eraseP, lookupP, h0, h1, ih]

theorem bindPid_set_none {tasks : List CTask} {i : Nat} {a : CTask} (ha : taskPid a = none)
    {j : Nat} {p : Nat} (h : ((tasks.set i a).get? j).bind taskPid = some p) :
    (tasks.get? j).bind taskPid = some p := by
  by_cases hij : i = j
  · subst hij
    rcases hq : (tasks.set i a).get? i with _ | t
    · rw [hq] at h
      simp at h
    · rw [hq] at h
      have : t = a := by
        rcases List.get?_eq_some.mp hq with ⟨hlt, hget⟩
        rw [List.length_set] at hlt
        have := List.get?_set_eq_of_lt a hlt
        rw [hq] at this
        exact Option.some.inj this
      rw [this] at h
      simp [ha] at h
  · rwa [List.get?_set_ne a tasks hij] at h

theorem bindPid_set_same {tasks : List CTask} {i : Nat} {a old : CTask}
    (hold : tasks.get? i = some old) (hpid : taskPid a = taskPid old) (j : Nat) :
    ((tasks.set i a).get? j).bind taskPid = (tasks.get? j).bind taskPid := by
  by_cases hij : i = j
  · subst hij
    have hlt : i < tasks.length := by
      rcases List.get?_eq_some.mp hold with ⟨hlt, _⟩
      exact hlt
    rw [List.get?_set_eq_of_lt a hlt, hold]
    simp [hpid]
  · rw [List.get?_set_ne a tasks hij]

theorem nodup_all_eq_length_le_one {α} {l : List α} (hn : l.Nodup)
    (he : ∀ x ∈ l, ∀ y ∈ l, x = y) : l.length ≤ 1 := by
  cases l with
  | nil => simp
  | cons a rest =>
      cases rest with
      | nil => simp
      | cons b rest2 =>
          exfalso
          have hab : a = b := he a (by simp) b (by simp)
          subst hab
          simp at hn

theorem mem_set_index {α} {l : List α} {i : Nat} {a t : α} (h : t ∈ l.set i a)
    (hne : t ≠ a) : ∃ j, j ≠ i ∧ l.get? j = some t := by
  obtain ⟨j, hj⟩ := List.mem_iff_get?.mp h
  by_cases hij : j = i
  · subst hij
    exfalso
    by_cases hlt : j < l.length
    · rw [List.get?_set_eq_of_lt a hlt] at hj
      exact hne (Option.some.inj hj).symm
    · rw [List.get?_eq_none.mpr (by rw [List.length_set]; exact Nat.le_of_not_lt hlt)] at hj
      cases hj
  · refine ⟨j, hij, ?_⟩
    rwa [List.get?_set_ne a l (fun hh => hij hh.symm)] at hj

theorem get?_append_one {α} (l : List α) (b : α) (j : Nat) :
    (l ++ [b]).get? j
      = if j < l.length then l.get? j else if j = l.length then some b else none := by
  by_cases h1 : j < l.length
  · rw [List.get?_append h1, if_pos h1]
  · have h2 : l.length ≤ j := Nat.le_of_not_lt h1
    rw [List.get?_append_right h2]
    by_cases h3 : j = l.length
    · subst h3
      simp
    · have h4 : 0 < j - l.length :=
        Nat.sub_pos_of_lt (lt_of_le_of_ne h2 (Ne.symm h3))
      rcases hk : j - l.length with _ | k
      · omega
      · simp [h1, h3]

theorem pidAt_spawned {s : CState} (hs : CInv s) {j : Nat} {p : Nat}
    (h : (s.tasks.get? j).bind taskPid = some p) : ∃ v, (v, p) ∈ s.spawned := by
  rcases hq : s.tasks.get? j with _ | t
  · rw [hq] at h
    simp at h
  · rw [hq] at h
    simp only [Option.some_bind] at h
    have hmem : t ∈ s.tasks := List.get?_mem hq
    cases t with
    | instRun v q =>
        simp only [taskPid] at h
        cases h
        exact ⟨v, (hs.instPend v p hmem).2.2⟩
    | cleanupT v q =>
        simp only [taskPid] at h
        cases h
        exact ⟨v, (hs.cleanPend v p hmem).2.2⟩
    | loadStart v => simp [taskPid] at h
    | loadResumed v => simp [taskPid] at h
    | loadDone v q => simp [taskPid] at h
    | finished => simp [taskPid] at h

theorem CInv_init (N : Nat) (u : String) : CInv (initC N u) := by
  refine ⟨?_, ?_, ?_, ?_, ?_, ?_, ?_, ?_, ?_⟩
  · intro v p hmem
    exact absurd (List.eq_of_mem_replicate hmem) (by simp)
  · intro v p hmem
    exact absurd (List.eq_of_mem_replicate hmem) (by simp)
  · intro v p hmem
    exact absurd (List.eq_of_mem_replicate hmem) (by simp)
  · intro v p hsp
    simp [initC] at hsp
  · intro e he
    simp [initC] at he
  · intro v p hsp
    simp [initC] at hsp
  · intro p hst
    simp [initC] at hst
  · simp [initC]
  · intro i j p hne h1 h2
    rcases hq : (initC N u).tasks.get? i with _ | t
    · rw [hq] at h1
      simp at h1
    · rw [hq] at h1
      have ht := List.eq_of_mem_replicate (List.get?_mem hq)
      subst ht
      simp [taskPid] at h1

theorem eraseP_subset {l : List (String × Nat)} {u : String} :
    ∀ e ∈ eraseP l u, e ∈ l := by
  induction l with
  | nil => intro e he; exact absurd he (by simp [eraseP])
  | cons a rest ih =>
      intro e he
      by_cases h0 : a.1 = u
      · simp only [eraseP, if_pos h0] at he
        exact List.mem_cons_of_mem _ (ih e he)
      · simp only [eraseP, if_neg h0] at he
        rcases List.mem_cons.mp he with he | he
        · exact he ▸ List.mem_cons_self _ _
        · exact List.mem_cons_of_mem _ (ih e he)

theorem CStep_inv {s s' : CState} (hs : CInv s) (hstep : CStep s s') : CInv s' := by
  cases hstep with
  | resume i u hi =>
      have ha : taskPid (CTask.loadResumed u) = none := rfl
      refine ⟨?_, ?_, ?_, hs.spawnPend, hs.pendSpawned, hs.spawnedFresh, hs.settledFresh,
        hs.spawnedNodup, ?_⟩
      · intro v p hmem
        rcases List.mem_or_eq_of_mem_set hmem with hmem | hmem
        · exact hs.instPend v p hmem
        · cases hmem
      · intro v p hmem
        rcases List.mem_or_eq_of_mem_set hmem with hmem | hmem
        · exact hs.cleanPend v p hmem
        · cases hmem
      · intro v p hmem
        rcases List.mem_or_eq_of_mem_set hmem with hmem | hmem
        · exact hs.doneSpawned v p hmem
        · cases hmem
      · intro i' j' p hne h1 h2
        exact hs.pidsDistinct i' j' p hne (bindPid_set_none ha h1) (bindPid_set_none ha h2)
  | hit i u p hi hp =>
      have ha : taskPid (CTask.loadDone u p) = none := rfl
      refine ⟨?_, ?_, ?_, hs.spawnPend, hs.pendSpawned, hs.spawnedFresh, hs.settledFresh,
        hs.spawnedNodup, ?_⟩
      · intro v q hmem
        rcases List.mem_or_eq_of_mem_set hmem with hmem | hmem
        · exact hs.instPend v q hmem
        · cases hmem
      · intro v q hmem
        rcases List.mem_or_eq_of_mem_set hmem with hmem | hmem
        · exact hs.cleanPend v q hmem
        · cases hmem
      · intro v q hmem
        rcases List.mem_or_eq_of_mem_set hmem with hmem | hmem
        · exact hs.doneSpawned v q hmem
        · cases hmem
          exact hs.pendSpawned _ (lookupP_mem hp)
      · intro i' j' q hne h1 h2
        exact hs.pidsDistinct i' j' q hne (bindPid_set_none ha h1) (bindPid_set_none ha h2)
  | spawn i u hi hp =>
      have ha : taskPid (CTask.loadDone u s.nextProm) = none := rfl
      refine ⟨?_, ?_, ?_, ?_, ?_, ?_, ?_, ?_, ?_⟩
      · intro v q hmem
        rcases List.mem_append.mp hmem with hm | hm
        · rcases List.mem_or_eq_of_mem_set hm with hm | hm
          · have h3 := hs.instPend v q hm
            have hvu : v ≠ u := by
              intro he
              subst he
              rw [hp] at h3
              cases h3.1
            refine ⟨?_, h3.2.1, List.mem_append_left _ h3.2.2⟩
            show lookupP ((u, s.nextProm) :: s.pending) v = some q
            rw [lookupP, if_neg (fun he => hvu he.symm)]
            exact h3.1
          · cases hm
        · rcases List.mem_singleton.mp hm with hm2
          cases hm2
          refine ⟨by rw [lookupP, if_pos rfl], ?_, List.mem_append_right _ (by simp)⟩
          intro hPst
          exact absurd (hs.settledFresh _ hPst) (lt_irrefl _)
      · intro v q hmem
        rcases List.mem_append.mp hmem with hm | hm
        · rcases List.mem_or_eq_of_mem_set hm with hm | hm
          · have h3 := hs.cleanPend v q hm
            have hvu : v ≠ u := by
              intro he
              subst he
              rw [hp] at h3
              cases h3.1
            refine ⟨?_, h3.2.1, List.mem_append_left _ h3.2.2⟩
            show lookupP ((u, s.nextProm) :: s.pending) v = some q
            rw [lookupP, if_neg (fun he => hvu he.symm)]
            exact h3.1
          · cases hm
        · rcases List.mem_singleton.mp hm with hm2
          cases hm2
      · intro v q hmem
        rcases List.mem_append.mp hmem with hm | hm
        · rcases List.mem_or_eq_of_mem_set hm with hm | hm
          · exact List.mem_append_left _ (hs.doneSpawned v q hm)
          · cases hm
            exact List.mem_append_right _ (by simp)
        · rcases List.mem_singleton.mp hm with hm2
          cases hm2
      · intro v q hsp hns
        rcases List.mem_append.mp hsp with hm | hm
        · by_cases hvu : v = u
          · subst hvu
            rw [hs.spawnPend v q hm hns] at hp
            cases hp
          · rw [lookupP, if_neg (fun he => hvu he.symm)]
            exact hs.spawnPend v q hm hns
        · rcases List.mem_singleton.mp hm with hm2
          cases hm2
          rw [lookupP, if_pos rfl]
      · intro e he
        rcases List.mem_cons.mp he with he | he
        · exact he ▸ List.mem_append_right _ (by simp)
        · exact List.mem_append_left _ (hs.pendSpawned e he)
      · intro v q hsp
        rcases List.mem_append.mp hsp with hm | hm
        · exact Nat.lt_succ_of_lt (hs.spawnedFresh v q hm)
        · rcases List.mem_singleton.mp hm with hm2
          cases hm2
          exact Nat.lt_succ_self _
      · intro q hq
        exact Nat.lt_succ_of_lt (hs.settledFresh q hq)
      · rw [List.map_append]
        refine List.nodup_append.mpr ⟨hs.spawnedNodup, by simp, ?_⟩
        intro a ha hb
        simp only [List.map_cons, List.map_nil, List.mem_singleton] at hb
        subst hb
        obtain ⟨⟨v, q⟩, hvq, hq⟩ := List.mem_map.mp ha
        dsimp at hq
        subst hq
        exact absurd (hs.spawnedFresh v _ hvq) (lt_irrefl _)
      · intro i' j' q hne h1 h2
        have key : ∀ k q2,
            (((s.tasks.set i (CTask.loadDone u s.nextProm))
                ++ [CTask.instRun u s.nextProm]).get? k).bind taskPid = some q2 →
            q2 = s.nextProm ∧ k = (s.tasks.set i (CTask.loadDone u s.nextProm)).length
            ∨ k ≠ (s.tasks.set i (CTask.loadDone u s.nextProm)).length
              ∧ (s.tasks.get? k).bind taskPid = some q2 := by
          intro k q2 hk
          rw [get?_append_one] at hk
          by_cases hlt : k < (s.tasks.set i (CTask.loadDone u s.nextProm)).length
          · rw [if_pos hlt] at hk
            exact Or.inr ⟨Nat.ne_of_lt hlt, bindPid_set_none ha hk⟩
          · rw [if_neg hlt] at hk
            by_cases hk2 : k = (s.tasks.set i (CTask.loadDone u s.nextProm)).length
            · rw [if_pos hk2] at hk
              simp only [Option.some_bind, taskPid] at hk
              exact Or.inl ⟨(Option.some.inj hk).symm, hk2⟩
            · rw [if_neg hk2] at hk
              cases hk
        rcases key i' q h1 with ⟨rfl, hi1⟩ | ⟨hi1, h1b⟩
        · rcases key j' s.nextProm h2 with ⟨hj0, hj1⟩ | ⟨hj1, h2b⟩
          · exact hne (hi1.trans hj1.symm)
          · obtain ⟨v, hv⟩ := pidAt_spawned hs h2b
            exact absurd (hs.spawnedFresh v _ hv) (lt_irrefl _)
        · rcases key j' q h2 with ⟨rfl, hj1⟩ | ⟨hj1, h2b⟩
          · obtain ⟨v, hv⟩ := pidAt_spawned hs h1b
            exact absurd (hs.spawnedFresh v _ hv) (lt_irrefl _)
          · exact hs.pidsDistinct i' j' q hne h1b h2b
  | settle i u p hi =>
      have hmemi : CTask.instRun u p ∈ s.tasks := List.get?_mem hi
      have hIP := hs.instPend u p hmemi
      refine ⟨?_, ?_, ?_, ?_, hs.pendSpawned, hs.spawnedFresh, ?_, hs.spawnedNodup, ?_⟩
      · intro v q hmem
        have hq2 : CTask.instRun v q ≠ CTask.cleanupT u p := by simp
        obtain ⟨j, hji, hjget⟩ := mem_set_index hmem hq2
        have h3 := hs.instPend v q (List.get?_mem hjget)
        refine ⟨h3.1, ?_, h3.2.2⟩
        intro hqin
        rcases List.mem_cons.mp hqin with hq | hq
        · subst hq
          exact hs.pidsDistinct j i q hji (by rw [hjget]; rfl) (by rw [hi]; rfl)
        · exact h3.2.1 hq
      · intro v q hmem
        rcases List.mem_or_eq_of_mem_set hmem with hm | hm
        · have h3 := hs.cleanPend v q hm
          exact ⟨h3.1, List.mem_cons_of_mem _ h3.2.1, h3.2.2⟩
        · cases hm
          exact ⟨hIP.1, List.mem_cons_self _ _, hIP.2.2⟩
      · intro v q hmem
        rcases List.mem_or_eq_of_mem_set hmem with hm | hm
        · exact hs.doneSpawned v q hm
        · cases hm
      · intro v q hsp hq
        exact hs.spawnPend v q hsp (fun hc => hq (List.mem_cons_of_mem _ hc))
      · intro q hq
        rcases List.mem_cons.mp hq with hq | hq
        · exact hq ▸ hs.spawnedFresh u p hIP.2.2
        · exact hs.settledFresh q hq
      · intro i' j' q hne h1 h2
        have hsame := bindPid_set_same hi
          (show taskPid (CTask.cleanupT u p) = taskPid (CTask.instRun u p) from rfl)
        rw [hsame i'] at h1
        rw [hsame j'] at h2
        exact hs.pidsDistinct i' j' q hne h1 h2
  | cleanupRun i u p hi =>
      have hmemi : CTask.cleanupT u p ∈ s.tasks := List.get?_mem hi
      have hCP := hs.cleanPend u p hmemi
      have ha : taskPid CTask.finished = none := rfl
      refine ⟨?_, ?_, ?_, ?_, ?_, hs.spawnedFresh, hs.settledFresh, hs.spawnedNodup, ?_⟩
      · intro v q hmem
        rcases List.mem_or_eq_of_mem_set hmem with hm | hm
        · have h3 := hs.instPend v q hm
          have hvu : v ≠ u := by
            intro he
            subst he
            have hqp : q = p := Option.some.inj (h3.1.symm.trans hCP.1)
            exact h3.2.1 (hqp ▸ hCP.2.1)
          refine ⟨?_, h3.2.1, h3.2.2⟩
          rw [lookupP_eraseP_ne _ _ _ hvu]
          exact h3.1
        · cases hm
      · intro v q hmem
        have hq2 : CTask.cleanupT v q ≠ CTask.finished := by simp
        obtain ⟨j, hji, hjget⟩ := mem_set_index hmem hq2
        have h3 := hs.cleanPend v q (List.get?_mem hjget)
        have hvu : v ≠ u := by
          intro he
          subst he
          have hqp : q = p := Option.some.inj (h3.1.symm.trans hCP.1)
          subst hqp
          exact hs.pidsDistinct j i q hji (by rw [hjget]; rfl) (by rw [hi]; rfl)
        refine ⟨?_, h3.2.1, h3.2.2⟩
        rw [lookupP_eraseP_ne _ _ _ hvu]
        exact h3.1
      · intro v q hmem
        rcases List.mem_or_eq_of_mem_set hmem with hm | hm
        · exact hs.doneSpawned v q hm
        · cases hm
      · intro v q hsp hq
        have h3 := hs.spawnPend v q hsp hq
        have hvu : v ≠ u := by
          intro he
          subst he
          have hqp : q = p := Option.some.inj (h3.symm.trans hCP.1)
          exact hq (hqp ▸ hCP.2.1)
        rw [lookupP_eraseP_ne _ _ _ hvu]
        exact h3
      · intro e he
        exact hs.pendSpawned e (eraseP_subset e he)
      · intro i' j' q hne h1 h2
        exact hs.pidsDistinct i' j' q hne (bindPid_set_none ha h1) (bindPid_set_none ha h2)

theorem CReach_inv {N : Nat} {u : String} {s : CState}
    (h : CReach (initC N u) s) : CInv s := by
  induction h with
  | refl => exact CInv_init N u
  | tail _ hstep ih => exact CStep_inv ih hstep

/-- Claim C1: single flight. In the loader-front machine, for every
reachable state: at most one instantiation task for the identifier is in
flight; as long as no instantiation for the identifier has settled, at
most one instantiation was ever started, all finished callers hold the
same promise id (hence settle to the identical namespace object), and if
any caller finished then exactly one instantiation was started; and a
resumed load that finds an in-flight entry in the pending table steps by
returning exactly that handle, changing nothing else. -/
theorem ssrLoadModule_single_flight (N : Nat) (u : String) (s : CState)
    (hr : CReach (initC N u) s) :
    (∀ i j p q, i ≠ j → s.tasks.get? i = some (.instRun u p) →
      s.tasks.get? j = some (.instRun u q) → False)
    ∧ ((∀ p, (u, p) ∈ s.spawned → p ∉ s.settled) →
        (spawnedFor s u).length ≤ 1
        ∧ (∀ p q, (CTask.loadDone u p) ∈ s.tasks → (CTask.loadDone u q) ∈ s.tasks → p = q)
        ∧ ((∃ p, (CTask.loadDone u p) ∈ s.tasks) → (spawnedFor s u).length = 1))
    ∧ (∀ i p, s.tasks.get? i = some (.loadResumed u) → lookupP s.pending u = some p →
        CStep s { s with tasks := s.tasks.set i (.loadDone u p) }) := by
  have hs := CReach_inv hr
  refine ⟨?_, ?_, ?_⟩
  · intro i j p q hne h1 h2
    have hp := hs.instPend u p (List.get?_mem h1)
    have hq := hs.instPend u q (List.get?_mem h2)
    have hpq : p = q := Option.some.inj (hp.1.symm.trans hq.1)
    subst hpq
    exact hs.pidsDistinct i j p hne (by rw [h1]; rfl) (by rw [h2]; rfl)
  · intro hns
    have hall : ∀ x ∈ spawnedFor s u, ∀ y ∈ spawnedFor s u, x = y := by
      intro x hx y hy
      simp only [spawnedFor, List.mem_filter, decide_eq_true_eq] at hx hy
      obtain ⟨x1, x2⟩ := x
      obtain ⟨y1, y2⟩ := y
      dsimp at hx hy
      obtain ⟨hx1, hx2⟩ := hx
      obtain ⟨hy1, hy2⟩ := hy
      have hx1u : (u, x2) ∈ s.spawned := hx2 ▸ hx1
      have hy1u : (u, y2) ∈ s.spawned := hy2 ▸ hy1
      have h1 := hs.spawnPend u x2 hx1u (hns x2 hx1u)
      have h2 := hs.spawnPend u y2 hy1u (hns y2 hy1u)
      have hxy : x2 = y2 := Option.some.inj (h1.symm.trans h2)
      rw [hx2, hy2, hxy]
    have hnodup : (spawnedFor s u).Nodup :=
      (List.Nodup.of_map _ hs.spawnedNodup).filter _
    have hle : (spawnedFor s u).length ≤ 1 := nodup_all_eq_length_le_one hnodup hall
    refine ⟨hle, ?_, ?_⟩
    · intro p q hp hq
      have hps := hs.doneSpawned u p hp
      have hqs := hs.doneSpawned u q hq
      have h1 := hs.spawnPend u p hps (hns p hps)
      have h2 := hs.spawnPend u q hqs (hns q hqs)
      exact Option.some.inj (h1.symm.trans h2)
    · intro hex
      obtain ⟨p, hp⟩ := hex
      have hps := hs.doneSpawned u p hp
      have hmem : (u, p) ∈ spawnedFor s u :=
        List.mem_filter.mpr ⟨hps, by simp⟩
      have hpos : 0 < (spawnedFor s u).length :=
        List.length_pos.mpr (List.ne_nil_of_mem hmem)
      omega
  · intro i p h1 h2
    exact CStep.hit s i u p h1 h2

/-- Witness for C1: a concrete run with two concurrent callers. The
second caller joins the in-flight promise of the first (the pending-hit
step is taken from the theorem itself), and in the resulting state
exactly one instantiation was started. -/
theorem ssrLoadModule_single_flight_witness :
    (spawnedFor cS4 "m").length = 1 ∧ CStep cS3 cS4 := by
  have st1 : CStep (initC 2 "m") cS1 := CStep.resume (initC 2 "m") 0 "m" rfl
  have st2 : CStep cS1 cS2 := CStep.resume cS1 1 "m" rfl
  have st3 : CStep cS2 cS3 := CStep.spawn cS2 0 "m" rfl rfl
  have hr3 : CReach (initC 2 "m") cS3 :=
    Relation.ReflTransGen.tail
      (Relation.ReflTransGen.tail
        (Relation.ReflTransGen.tail Relation.ReflTransGen.refl st1) st2) st3
  have st4 : CStep cS3 cS4 :=
    (ssrLoadModule_single_flight 2 "m" cS3 hr3).2.2 1 0 rfl rfl
  have hr4 : CReach (initC 2 "m") cS4 := Relation.ReflTransGen.tail hr3 st4
  have h := ssrLoadModule_single_flight 2 "m" cS4 hr4
  refine ⟨?_, st4⟩
  refine (h.2.1 ?_).2.2 ⟨0, by decide⟩
  intro p hp
  have hp0 : p = 0 := by
    simp [cS4] at hp
    exact hp
  subst hp0
  simp [cS4]
